import Mathlib

/-!
Verification development for the `trace` procedural macro crate.

The definitions below are a shallow embedding of `src/lib.rs`:

* the format-string interpolation compiler
  (`parse_fmt_str` / `parse_interpolated` / `skip_whitespace_and_check` /
  `fix_interpolated`, lib.rs lines 455-579),
* the argument extractor (`extract_arg_idents` / `process_pat`, lines 581-631),
* the body synthesizer (`construct_traced_block`, lines 342-432), and
* the declaration walker (`transform_item` / `transform_mod` /
  `transform_impl`, lines 224-312).

Rust strings are modelled as `List Char` (the `String.data` view); the
`Peekable<Chars>` iterator becomes the explicit remainder list.  Mutable
state that the Rust code threads through `&mut Vec<..>` arguments is passed
and returned explicitly.  A Rust panic (`unimplemented!()`) is modelled as
`Option.none`; a `syn::Error` that is turned into a `compile_error!` stub is
modelled as a structured error value.  The `args` module (configuration
parsing) is not part of the sources; only the shape of its `Args` record and
`Filter` enum, which `lib.rs` consumes, is reproduced here.
-/

namespace Trace

/-- The character `\x7b` (opening brace). -/
def lbrace : Char := Char.ofNat 123

/-- The character `\x7d` (closing brace). -/
def rbrace : Char := Char.ofNat 125

/-- The space character, initial value of `last_char` in `parse_interpolated`. -/
def spaceChar : Char := Char.ofNat 32

instance {ε α : Type} [DecidableEq ε] [DecidableEq α] : DecidableEq (Except ε α) := fun a b =>
  match a, b with
  | .error e, .error f => decidable_of_iff (e = f) ⟨fun h => by rw [h], fun h => by cases h; rfl⟩
  | .ok x, .ok y => decidable_of_iff (x = y) ⟨fun h => by rw [h], fun h => by cases h; rfl⟩
  | .error _, .ok _ => .isFalse (fun h => by cases h)
  | .ok _, .error _ => .isFalse (fun h => by cases h)

/-- The `syn::Error` values produced by the interpolation compiler, by
construction site.  All of them are created with `Span::call_site()` in the
source; the payload recorded here is the datum interpolated into the message. -/
inductive FmtError where
  /-- lib.rs 477-480: a lone closing brace in `parse_fmt_str`. -/
  | unmatchedClose
  /-- lib.rs 497-501: `fix_interpolated` saw `last_char != '\x7d'`
      (the template ended before the placeholder was closed). -/
  | unterminated
  /-- lib.rs 570-575: `skip_whitespace_and_check` met a non-whitespace
      character other than the closing brace. -/
  | unexpectedChar (c : Char)
  /-- lib.rs 518-522: the placeholder identifier is neither in
      `kept_arg_idents` nor in `arg_idents`. -/
  | notFound (ident : String)
  deriving DecidableEq, Repr

/-- Result of `parse_fmt_str`: the rewritten format string (or error), the
final state of `arg_idents` (names still available) and of `kept_arg_idents`
(names consumed, in first-use order).  The Rust function returns only the
first and last components; the middle one models the final state of the
`arg_idents` vector it owns. -/
abbrev FmtResult := (Except FmtError (List Char)) × List String × List String

/-- `str::split_once(":")`: split at the first colon, if any. -/
def split_once_colon : List Char → Option (List Char × List Char)
  | [] => none
  | c :: rest =>
    if c = ':' then some ([], rest)
    else (split_once_colon rest).map (fun p => (c :: p.1, p.2))

/-- `format!("\x7b\x7b{}:{}\x7d\x7d", index, custom_format)` (lib.rs 513/516):
the positional placeholder written into the rewritten format string.  A colon
is always emitted, even for an empty format spec. -/
def mk_positional (n : Nat) (custom_format : List Char) : List Char :=
  lbrace :: (toString n).data ++ ':' :: custom_format ++ [rbrace]

/-- The identifier-resolution block of `fix_interpolated` (lib.rs 507-523):
an identifier already in `kept_arg_idents` reuses its existing 1-based
position; an identifier still in `arg_idents` is removed from there and
appended to `kept_arg_idents`, receiving the new list length as its position;
anything else is an error naming the identifier.  (The element pushed by
`kept_arg_idents.push(arg_idents.remove(index))` is written as the identifier
itself: the search predicate is string equality with it.) -/
def fix_resolve (ident_str : String) (custom_format : List Char)
    (arg_idents kept_arg_idents : List String) :
    Except FmtError (List Char × List String × List String) :=
  match kept_arg_idents.findIdx? (· == ident_str) with
  | some index =>
    .ok (mk_positional (index + 1) custom_format, arg_idents, kept_arg_idents)
  | none =>
    match arg_idents.findIdx? (· == ident_str) with
    | some index =>
      .ok (mk_positional (kept_arg_idents ++ [ident_str]).length custom_format,
        arg_idents.eraseIdx index, kept_arg_idents ++ [ident_str])
    | none => .error (.notFound ident_str)

/-- `fix_interpolated` (lib.rs 491-524).  Unless the placeholder ended
without its closing brace, split the collected text on the first colon into
identifier and verbatim format spec (`split_once(":")` with
`unwrap_or((&ident, ""))`), then resolve the identifier via `fix_resolve`. -/
def fix_interpolated (last_char : Char) (ident : List Char)
    (arg_idents kept_arg_idents : List String) :
    Except FmtError (List Char × List String × List String) :=
  if last_char ≠ rbrace then .error .unterminated
  else
    match split_once_colon ident with
    | some p => fix_resolve (String.mk p.1) p.2 arg_idents kept_arg_idents
    | none => fix_resolve (String.mk ident) [] arg_idents kept_arg_idents

/-- Shared exit path: `parse_interpolated`'s loop has ended (iterator
exhausted), `fix_interpolated` runs on the collected identifier, and on
success the interpolated text is appended to the format string accumulated so
far — `parse_fmt_str`'s loop, whose iterator is also exhausted, then returns. -/
def close_interpolated (last : Char) (ident : List Char)
    (args kept : List String) (acc : List Char) : FmtResult :=
  match fix_interpolated last ident args kept with
  | .error e => (.error e, args, kept)
  | .ok (s, args', kept') => (.ok (acc ++ s), args', kept')

/-- The control state of the scanner.  The three Rust loops share one
character iterator, so they are embedded as one structurally recursive
function over the remaining characters with an explicit mode:

* `top` is the `while` loop of `parse_fmt_str` (lib.rs 462-487);
* `afterOpen` is `parse_fmt_str` just after consuming `\x7b`, about to peek
  for an escape (lib.rs 464-473) — with the difference that the peeked
  character is consumed here and handed to the `parse_interpolated` logic
  directly when it is not a second `\x7b`;
* `afterClose` is `parse_fmt_str` just after consuming `\x7d`
  (lib.rs 475-484);
* `interp last ident` is the loop of `parse_interpolated` (lib.rs 531-548);
* `skipWs ident_char ident` is the loop of `skip_whitespace_and_check`
  (lib.rs 561-577); its `break` on `\x7d` returns to the `interp` loop with
  `last_char = rbrace`, exactly as the Rust `break` resumes the outer loop. -/
inductive ScanMode where
  | top
  | afterOpen
  | afterClose
  | interp (last : Char) (ident : List Char)
  | skipWs (ident_char : Char) (ident : List Char)
  deriving DecidableEq, Repr

/-- The interpolation scanner: `parse_fmt_str` / `parse_interpolated` /
`skip_whitespace_and_check` (lib.rs 455-579) as a single recursion over the
remaining characters, with `ScanMode` recording which of the three loops is
running.  State: `args` is `arg_idents`, `kept` is `kept_arg_idents`, `acc`
is `fixed_format_str`. -/
def parse_fmt_loop : List Char → ScanMode → List String → List String → List Char → FmtResult
  | [], mode, args, kept, acc =>
    match mode with
    | .top => (.ok acc, args, kept)
    | .afterOpen => close_interpolated spaceChar [] args kept acc
    | .afterClose => (.error .unmatchedClose, args, kept)
    | .interp last ident => close_interpolated last ident args kept acc
    | .skipWs ident_char ident => close_interpolated ident_char ident args kept acc
  | c :: rest, mode, args, kept, acc =>
    match mode with
    | .top =>
      if c = lbrace then parse_fmt_loop rest .afterOpen args kept acc
      else if c = rbrace then parse_fmt_loop rest .afterClose args kept acc
      else parse_fmt_loop rest .top args kept (acc ++ [c])
    | .afterOpen =>
      if c = lbrace then parse_fmt_loop rest .top args kept (acc ++ [lbrace, lbrace])
      else if c = rbrace then
        match fix_interpolated rbrace [] args kept with
        | .error e => (.error e, args, kept)
        | .ok (s, args', kept') => parse_fmt_loop rest .top args' kept' (acc ++ s)
      else if c.isWhitespace then parse_fmt_loop rest (.skipWs c []) args kept acc
      else parse_fmt_loop rest (.interp c [c]) args kept acc
    | .afterClose =>
      if c = rbrace then parse_fmt_loop rest .top args kept (acc ++ [rbrace, rbrace])
      else (.error .unmatchedClose, args, kept)
    | .interp _ ident =>
      if c = rbrace then
        match fix_interpolated rbrace ident args kept with
        | .error e => (.error e, args, kept)
        | .ok (s, args', kept') => parse_fmt_loop rest .top args' kept' (acc ++ s)
      else if c.isWhitespace then parse_fmt_loop rest (.skipWs c ident) args kept acc
      else parse_fmt_loop rest (.interp c (ident ++ [c])) args kept acc
    | .skipWs ident_char ident =>
      if c = rbrace then parse_fmt_loop rest (.interp rbrace ident) args kept acc
      else if c.isWhitespace then parse_fmt_loop rest (.skipWs ident_char ident) args kept acc
      else (.error (.unexpectedChar c), args, kept)

/-- `parse_fmt_str(fmt_str, arg_idents)` (lib.rs 455-489): scan the template
from its beginning with empty `kept_arg_idents` and empty output. -/
def parse_fmt_str (fmt_str : List Char) (arg_idents : List String) : FmtResult :=
  parse_fmt_loop fmt_str .top arg_idents [] []

/-- `args::Filter` as consumed by lib.rs (`Enable`/`Disable` carry the name
lists given to the attribute; `None` is the absence of a filter). -/
inductive Filter where
  | None
  | Enable (idents : List String)
  | Disable (idents : List String)
  deriving DecidableEq, Repr

/-- `AttrApplied` (lib.rs 198-202). -/
inductive AttrApplied where
  | Directly
  | Indirectly
  deriving DecidableEq, Repr

/-- The `args::Args` configuration record, with exactly the fields lib.rs
reads.  Its construction and validation live in the `args` module, which is
outside the embedded sources; none of the claims below depend on them. -/
structure Args where
  prefix_enter : String
  prefix_exit : String
  filter : Filter
  pause : Bool
  pretty : Bool
  logging : Bool
  format_enter : Option String
  format_exit : Option String
  deriving DecidableEq, Repr

/-- Function parameter patterns as distinguished by `process_pat`
(lib.rs 592-616): a simple bound name, a tuple of sub-patterns, or any other
pattern kind (struct patterns, slices, ...), which the source handles with
`unimplemented!()`. -/
inductive Pat where
  | ident (name : String)
  | tuple (elems : List Pat)
  | other

/-- `syn::FnArg`: a receiver (`self` in any form) or a typed pattern. -/
inductive FnArg where
  | receiver
  | typed (pat : Pat)

/-- The part of `syn::Signature` the embedding needs: the function name and
its parameters. -/
structure Sig where
  ident : String
  inputs : List FnArg

mutual
/-- `process_pat` (lib.rs 586-617).  A bound name is appended to
`arg_idents`, unless the attribute was applied `Directly` and the
enable/disable filter excludes it; a tuple pattern recurses into its elements
left to right; any other pattern is `unimplemented!()`, modelled as `none`.
The `unimplemented!()` panic aborts macro expansion with no source span — in
particular it is not a diagnostic attached to the parameter's position. -/
def process_pat (args : Args) (attr_applied : AttrApplied) :
    Pat → List String → Option (List String)
  | .ident name, arg_idents =>
    match attr_applied with
    | .Directly =>
      match args.filter with
      | .Enable idents =>
        if !idents.contains name then some arg_idents else some (arg_idents ++ [name])
      | .Disable idents =>
        if idents.contains name then some arg_idents else some (arg_idents ++ [name])
      | .None => some (arg_idents ++ [name])
    | .Indirectly => some (arg_idents ++ [name])
  | .tuple elems, arg_idents => process_pat_list args attr_applied elems arg_idents
  | .other, _ => none

/-- The `pat_tuple.elems.iter().for_each(..)` recursion of `process_pat`
(lib.rs 610-614), threading the accumulator left to right. -/
def process_pat_list (args : Args) (attr_applied : AttrApplied) :
    List Pat → List String → Option (List String)
  | [], arg_idents => some arg_idents
  | p :: ps, arg_idents =>
    match process_pat args attr_applied p arg_idents with
    | none => none
    | some arg_idents' => process_pat_list args attr_applied ps arg_idents'
end

/-- The `for input in &sig.inputs` loop of `extract_arg_idents`
(lib.rs 621-628): receivers (`self`) are skipped, typed patterns go through
`process_pat`. -/
def extract_inputs (args : Args) (attr_applied : AttrApplied) :
    List FnArg → List String → Option (List String)
  | [], arg_idents => some arg_idents
  | .receiver :: rest, arg_idents => extract_inputs args attr_applied rest arg_idents
  | .typed pat :: rest, arg_idents =>
    match process_pat args attr_applied pat arg_idents with
    | none => none
    | some arg_idents' => extract_inputs args attr_applied rest arg_idents'

/-- `extract_arg_idents` (lib.rs 581-631): collect the candidate display
names of a signature, starting from the empty vector.  `none` models the
`unimplemented!()` panic on an unsupported pattern. -/
def extract_arg_idents (args : Args) (attr_applied : AttrApplied) (sig : Sig) :
    Option (List String) :=
  extract_inputs args attr_applied sig.inputs []

/-- The statements of the generated block, in the order `construct_traced_block`
quotes them (lib.rs 422-431).  `printEnter`/`printExit` record the printer
choice (`log::trace!` when `logging`, else `println!`), the format string,
and — for the entry line — the argument expressions spliced in resolved
order; `interpolates_return` is true exactly when the exit print receives
`fn_return_value` as an argument (lib.rs 417-421). -/
inductive Stmt where
  | printEnter (logging : Bool) (fmt : String) (arg_idents : List String)
  | pause
  | incrDepth
  | bindBody
  | decrDepth
  | printExit (logging : Bool) (fmt : String) (interpolates_return : Bool)
  | returnValue
  deriving DecidableEq, Repr

/-- The block produced by `construct_traced_block`: either the
`compile_error!`-only stub block produced on a format-string error
(lib.rs 383-387, 395-399), or the instrumented statement sequence. -/
inductive TracedBlock where
  | errorBlock (e : FmtError)
  | traced (stmts : List Stmt)
  deriving DecidableEq, Repr

/-- The default entry format (lib.rs 356-360): every candidate argument shown
as `name = \x7b:?\x7d`, joined by a comma and space. -/
def default_enter_fmt (arg_idents : List String) : List Char :=
  (String.intercalate (", ") (arg_idents.map (fun a => a ++ (" = \x7b:?\x7d")))).data

/-- The `(enter_format, arg_idents)` pair of `construct_traced_block`
(lib.rs 352-363): the custom enter template compiled against the candidate
names, keeping the consumed names in first-use order (`parse_fmt_str` returns
`(result, kept_arg_idents)`), or the default listing keeping all candidates. -/
def enter_format_pair (args : Args) (arg_idents0 : List String) :
    (Except FmtError (List Char)) × List String :=
  match args.format_enter with
  | some fmt_str =>
    ((parse_fmt_str fmt_str.data arg_idents0).1, (parse_fmt_str fmt_str.data arg_idents0).2.2)
  | none => (.ok (default_enter_fmt arg_idents0), arg_idents0)

/-- The `(exit_format, exit_val)` pair of `construct_traced_block`
(lib.rs 368-375): the custom exit template compiled against the singleton
`vec![quote!(r)]` (keeping the consumed names), or the plain/pretty debug
format keeping the untouched singleton. -/
def exit_format_pair (args : Args) : (Except FmtError (List Char)) × List String :=
  match args.format_exit with
  | some fmt_str =>
    ((parse_fmt_str fmt_str.data (["r"])).1, (parse_fmt_str fmt_str.data (["r"])).2.2)
  | none =>
    if args.pretty then (.ok ("\x7b:#?\x7d".data), ["r"])
    else (.ok ("\x7b:?\x7d".data), ["r"])

/-- `format!("\x7b\x7b:depth$\x7d\x7d{} Entering {}({})", ..)` (lib.rs 377-388). -/
def entering_format (args : Args) (sig : Sig) (enter_ok : List Char) : String :=
  ("\x7b:depth$\x7d") ++ args.prefix_enter ++ (" Entering ") ++ sig.ident
    ++ ("(") ++ String.mk enter_ok ++ (")")

/-- `format!("\x7b\x7b:depth$\x7d\x7d{} Exiting {} = {}", ..)` (lib.rs 389-400). -/
def exiting_format (args : Args) (sig : Sig) (exit_ok : List Char) : String :=
  ("\x7b:depth$\x7d") ++ args.prefix_exit ++ (" Exiting ") ++ sig.ident
    ++ (" = ") ++ String.mk exit_ok

/-- The statement sequence quoted by `parse_quote!` at lib.rs 422-431, with
the two optional pause blocks and the choice of exit print. -/
def traced_stmts (logging pause : Bool) (enter_fmt exit_fmt : String)
    (arg_idents : List String) (should_interpolate : Bool) : List Stmt :=
  [Stmt.printEnter logging enter_fmt arg_idents]
    ++ (if pause then [Stmt.pause] else [])
    ++ [Stmt.incrDepth, Stmt.bindBody, Stmt.decrDepth,
        Stmt.printExit logging exit_fmt should_interpolate]
    ++ (if pause then [Stmt.pause] else [])
    ++ [Stmt.returnValue]

/-- `construct_traced_block` (lib.rs 342-432).  Extracts the candidate
argument names (propagating the `unimplemented!()` panic as `none`), compiles
the entry and exit formats, decides
`should_interpolate = !exit_val.is_empty()` from the list of consumed names,
embeds both formats into the `Entering`/`Exiting` message strings, and quotes
the wrapper statements.  An entry-format error wins over an exit-format
error, as in the source where the entry message is built first. -/
def construct_traced_block (args : Args) (attr_applied : AttrApplied) (sig : Sig) :
    Option TracedBlock :=
  match extract_arg_idents args attr_applied sig with
  | none => none
  | some arg_idents0 =>
    match enter_format_pair args arg_idents0, exit_format_pair args with
    | (.error e, _), _ => some (.errorBlock e)
    | (.ok _, _), (.error e, _) => some (.errorBlock e)
    | (.ok enter_ok, arg_idents), (.ok exit_ok, exit_val) =>
      some (.traced (traced_stmts args.logging args.pause
        (entering_format args sig enter_ok) (exiting_format args sig exit_ok)
        arg_idents (!exit_val.isEmpty)))

/-- Depth-counter semantics of a generated block.  A body behaviour maps the
current thread-local `DEPTH` value to the `DEPTH` value when control leaves
the body, together with `true` for normal completion or `false` for an abrupt
exit (an early `return` statement inside the original block, a `?`
propagation, or a panic) — in Rust all of these transfer control out of the
whole generated function, past the statements that follow
`let fn_return_value = { .. };`.  Print and pause statements do not touch the
counter. -/
def exec_stmts (body : Nat → Nat × Bool) : List Stmt → Nat → Nat × Bool
  | [], depth => (depth, true)
  | stmt :: rest, depth =>
    match stmt with
    | .incrDepth => exec_stmts body rest (depth + 1)
    | .decrDepth => exec_stmts body rest (depth - 1)
    | .bindBody =>
      match body depth with
      | (depth', true) => exec_stmts body rest depth'
      | (depth', false) => (depth', false)
    | _ => exec_stmts body rest depth

/-- An `fn` item's block: the original body (opaque, tagged), or the result
of instrumentation. -/
inductive Block where
  | original (tag : Nat)
  | instrumented (b : TracedBlock)

/-- A function item (or `impl` method): its signature and its block. -/
structure FnItem where
  sig : Sig
  block : Block

/-- An item inside an `impl` block: a method, or any other impl item
(associated const, type, ...), which `transform_impl` leaves untouched. -/
inductive ImplItem where
  | method (f : FnItem)
  | otherImplItem

/-- A `syn::Item` as distinguished by the walker: a function, a module
(whose content is `none` for `mod name;` declarations pointing at another
file), an `impl` block, the injected thread-local `DEPTH` declaration, or any
other item kind (which `transform_item` leaves untouched). -/
inductive Item where
  | fn (f : FnItem)
  | module (name : String) (content : Option (List Item))
  | implBlock (items : List ImplItem)
  | depthDecl
  | other

/-- The enable/disable name check shared by `transform_mod`,
`transform_impl` and `process_pat`: `Enable` present and name absent, or
`Disable` present and name contained, means the node is skipped. -/
def filter_skips (filter : Filter) (name : String) : Bool :=
  match filter with
  | .Enable idents => !idents.contains name
  | .Disable idents => idents.contains name
  | .None => false

/-- The name `transform_mod` checks against the filter (lib.rs 255-260):
functions and nested modules expose their identifier; other item kinds are
never filtered. -/
def mod_filter_skips (args : Args) : Item → Bool
  | .fn f => filter_skips args.filter f.sig.ident
  | .module name _ => filter_skips args.filter name
  | _ => false

/-- `transform_fn` (lib.rs 233-240): replace the function's block with the
instrumented one. -/
def transform_fn (args : Args) (attr_applied : AttrApplied) (f : FnItem) : Option FnItem :=
  (construct_traced_block args attr_applied f.sig).map
    (fun b => { f with block := .instrumented b })

/-- `transform_impl` (lib.rs 287-312): each method is instrumented with
`AttrApplied::Indirectly` unless this node was reached `Directly` and the
filter excludes the method's name, in which case it is left untouched;
non-method impl items are left untouched. -/
def transform_impl_items (args : Args) (attr_applied : AttrApplied) :
    List ImplItem → Option (List ImplItem)
  | [] => some []
  | .method f :: rest =>
    if attr_applied = .Directly && filter_skips args.filter f.sig.ident then
      (transform_impl_items args attr_applied rest).map (.method f :: ·)
    else
      match construct_traced_block args .Indirectly f.sig with
      | none => none
      | some b =>
        (transform_impl_items args attr_applied rest).map
          (.method { f with block := .instrumented b } :: ·)
  | .otherImplItem :: rest =>
    (transform_impl_items args attr_applied rest).map (.otherImplItem :: ·)

mutual
/-- `transform_item` (lib.rs 224-231): dispatch on the item kind; item kinds
other than `fn`, `mod` and `impl` are left unchanged. -/
def transform_item (args : Args) (attr_applied : AttrApplied) : Item → Option Item
  | .fn f => (transform_fn args attr_applied f).map .fn
  | .module name content => transform_mod args attr_applied name content
  | .implBlock items => (transform_impl_items args attr_applied items).map .implBlock
  | .depthDecl => some .depthDecl
  | .other => some .other

/-- `transform_mod` (lib.rs 242-285): a module without inline content
(`mod name;`) hits `unimplemented!()`; otherwise every child is processed
(with the filter consulted only when this module was reached `Directly`, and
recursion marked `Indirectly`), and afterwards one fresh thread-local `DEPTH`
declaration is inserted at position 0 of the module body. -/
def transform_mod (args : Args) (attr_applied : AttrApplied) (name : String) :
    Option (List Item) → Option Item
  | none => none
  | some items =>
    (transform_mod_items args attr_applied items).map
      (fun items' => .module name (some (Item.depthDecl :: items')))

/-- The `items.iter_mut().for_each(..)` loop of `transform_mod`
(lib.rs 253-274): a child function or module whose name the filter excludes
(only when reached `Directly`) is left untouched; every other child is
transformed with `AttrApplied::Indirectly`. -/
def transform_mod_items (args : Args) (attr_applied : AttrApplied) :
    List Item → Option (List Item)
  | [] => some []
  | item :: rest =>
    match (if attr_applied = .Directly && mod_filter_skips args item then some item
           else transform_item args .Indirectly item) with
    | none => none
    | some item' => (transform_mod_items args attr_applied rest).map (item' :: ·)
end

/-- The body of `transform_mod`'s per-child closure in the `Directly` case
(lib.rs 253-273), as a standalone function for stating properties about it. -/
def mod_child_step (args : Args) (item : Item) : Option Item :=
  if mod_filter_skips args item then some item
  else transform_item args .Indirectly item

/-- Whether an item is (syntactically) the injected thread-local `DEPTH`
declaration. -/
def is_depth_decl : Item → Bool
  | .depthDecl => true
  | _ => false

/-- Number of `DEPTH` declarations among the direct children of a module body. -/
def count_depth_decls (items : List Item) : Nat :=
  items.countP (fun i => is_depth_decl i)

/-- Whether the generated block's exit print receives the return value
(lib.rs 417-421: the variant of `print_exit` that passes `fn_return_value`). -/
def exit_prints_return (stmts : List Stmt) : Bool :=
  stmts.any fun s =>
    match s with
    | .printExit _ _ b => b
    | _ => false

/-!  Reference model of the interpolation language, for the refinement
claims.  A template is rendered from a list of segments; `compile_spec` is
the resolution algorithm in the spec's words (§4.4, steps 1-5). -/

/-- A template segment: a literal character, an escaped opening or closing
brace, or a placeholder with identifier and optional format spec. -/
inductive Seg where
  | lit (c : Char)
  | escOpen
  | escClose
  | ph (ident : String) (spec : Option String)

/-- Rendering of a placeholder's optional `:spec` suffix. -/
def spec_render : Option String → List Char
  | none => []
  | some s => ':' :: s.data

/-- The characters a segment denotes in the template text. -/
def render_seg : Seg → List Char
  | .lit c => [c]
  | .escOpen => [lbrace, lbrace]
  | .escClose => [rbrace, rbrace]
  | .ph id spec => lbrace :: (id.data ++ spec_render spec) ++ [rbrace]

/-- The template text of a segment list. -/
def render_segs : List Seg → List Char
  | [] => []
  | s :: rest => render_seg s ++ render_segs rest

/-- Characters allowed in a rendered placeholder identifier: no braces, no
colon, no whitespace. -/
def ident_char_ok (c : Char) : Bool :=
  !(c = lbrace) && !(c = rbrace) && !(c = ':') && !c.isWhitespace

/-- Characters allowed in a rendered format spec: no braces, no whitespace
(colons are allowed; only the first colon separates identifier from spec). -/
def spec_char_ok (c : Char) : Bool :=
  !(c = lbrace) && !(c = rbrace) && !c.isWhitespace

/-- Well-formedness of a placeholder's optional spec. -/
def spec_wf : Option String → Bool
  | none => true
  | some s => s.data.all spec_char_ok

/-- Well-formedness of a segment: literal characters are brace-free, and
placeholder identifiers/specs use only the allowed characters, so that the
rendered text reads back as the same segments. -/
def seg_wf : Seg → Bool
  | .lit c => !(c = lbrace) && !(c = rbrace)
  | .escOpen => true
  | .escClose => true
  | .ph id spec => id.data.all ident_char_ok && spec_wf spec

/-- Well-formedness of a whole template. -/
def segs_wf (segs : List Seg) : Bool := segs.all seg_wf

/-- The spec chars of a placeholder, as handed to the underlying formatter. -/
def spec_chars : Option String → List Char
  | none => []
  | some s => s.data

/-- Modelled from the spec (§4.4 of the specification, steps 1-5): the
reference compilation of a template.  Literals and escapes are copied; a
placeholder identifier already in `used` reuses its existing 1-based
position; an identifier still in `avail` is removed from `avail` and appended
to `used`, receiving position `used.length + 1` (the 1-based position of its
first occurrence); an unknown identifier is an error naming it.  Position `n`
in the output therefore always refers to the `n`-th entry of the final `used`
list. -/
def compile_spec : List Seg → List String → List String → List Char → FmtResult
  | [], avail, used, acc => (.ok acc, avail, used)
  | .lit c :: rest, avail, used, acc => compile_spec rest avail used (acc ++ [c])
  | .escOpen :: rest, avail, used, acc => compile_spec rest avail used (acc ++ [lbrace, lbrace])
  | .escClose :: rest, avail, used, acc => compile_spec rest avail used (acc ++ [rbrace, rbrace])
  | .ph id spec :: rest, avail, used, acc =>
    match used.findIdx? (· == id) with
    | some index =>
      compile_spec rest avail used (acc ++ mk_positional (index + 1) (spec_chars spec))
    | none =>
      match avail.findIdx? (· == id) with
      | some index =>
        compile_spec rest (avail.eraseIdx index) (used ++ [id])
          (acc ++ mk_positional (used.length + 1) (spec_chars spec))
      | none => (.error (.notFound id), avail, used)

/-- A template consisting only of literals and escaped braces. -/
def ph_free (segs : List Seg) : Bool :=
  segs.all (fun s =>
    match s with
    | .ph _ _ => false
    | _ => true)

mutual
/-- Whether a pattern consists only of bound names and tuples of such. -/
def pat_supported : Pat → Bool
  | .ident _ => true
  | .tuple elems => pats_supported elems
  | .other => false

/-- List version of `pat_supported`. -/
def pats_supported : List Pat → Bool
  | [] => true
  | p :: ps => pat_supported p && pats_supported ps
end

mutual
/-- The bound names of a supported pattern, in left-to-right order. -/
def flatten_pat : Pat → List String
  | .ident name => [name]
  | .tuple elems => flatten_pats elems
  | .other => []

/-- List version of `flatten_pat`. -/
def flatten_pats : List Pat → List String
  | [] => []
  | p :: ps => flatten_pat p ++ flatten_pats ps
end

/-- Whether every parameter pattern of a signature is supported. -/
def inputs_supported : List FnArg → Bool
  | [] => true
  | .receiver :: rest => inputs_supported rest
  | .typed p :: rest => pat_supported p && inputs_supported rest

/-- All bound parameter names of a signature in declaration order, receivers
skipped and tuples flattened. -/
def flatten_inputs : List FnArg → List String
  | [] => []
  | .receiver :: rest => flatten_inputs rest
  | .typed p :: rest => flatten_pat p ++ flatten_inputs rest

/-- Instrumentation of every method of an `impl` block, unconditionally
(no filter consulted), each with `AttrApplied::Indirectly`. -/
def instrument_all_methods (args : Args) : List ImplItem → Option (List ImplItem)
  | [] => some []
  | .method f :: rest =>
    match construct_traced_block args .Indirectly f.sig with
    | none => none
    | some b =>
      (instrument_all_methods args rest).map
        (.method { f with block := .instrumented b } :: ·)
  | .otherImplItem :: rest =>
    (instrument_all_methods args rest).map (.otherImplItem :: ·)

/-!  Concrete sample data used by witnesses and counterexamples. -/

/-- A configuration with no filter, no custom formats and all flags off
(the values the spec lists as defaults). -/
def sampleArgs : Args :=
  { prefix_enter := "[+]", prefix_exit := "[-]", filter := .None,
    pause := false, pretty := false, logging := false,
    format_enter := none, format_exit := none }

/-- `fn foo()`. -/
def fooSig : Sig := { ident := "foo", inputs := [] }

/-- The statements `construct_traced_block` generates for `fn foo()` under
`sampleArgs`. -/
def foo_default_stmts : List Stmt :=
  match construct_traced_block sampleArgs .Directly fooSig with
  | some (.traced s) => s
  | _ => []

/-- `fn bar(self, a, (b, (c, d)))`: a receiver, a plain name and a nested
tuple pattern. -/
def c3_sig : Sig :=
  { ident := "bar",
    inputs := [.receiver, .typed (.ident ("a")),
      .typed (.tuple [.ident ("b"), .tuple [.ident ("c"), .ident ("d")]])] }

/-- A signature whose third parameter uses an unsupported pattern kind. -/
def badPatSig : Sig :=
  { ident := "f",
    inputs := [.receiver, .typed (.ident ("a")), .typed Pat.other] }

/-- `sampleArgs` with the custom exit template `returning \x7br\x7d`. -/
def c4_args : Args := { sampleArgs with format_exit := some ("returning \x7br\x7d") }

/-- The statements `construct_traced_block` generates for `fn foo()` under
`c4_args`. -/
def c4_stmts : List Stmt :=
  match construct_traced_block c4_args .Directly fooSig with
  | some (.traced s) => s
  | _ => []

/-- Children of a concrete sample module: a function and an untouched item. -/
def c6_mod_items : List Item :=
  [Item.fn { sig := fooSig, block := .original 0 }, Item.other]

/-- The item `transform_item` produces for the sample module. -/
def c6_out : Item :=
  (transform_item sampleArgs .Directly (Item.module ("m") (some c6_mod_items))).getD Item.other

/-- The template `\x7ba\x7dx\x7ba:?\x7d`: the identifier `a` twice, the
second time with a format spec. -/
def c1_segs : List Seg := [Seg.ph ("a") none, Seg.lit 'x', Seg.ph ("a") (some ("?"))]

/-- Conservation property of the scanner state: the available list only
shrinks (as a sublist, so never reordered), and every removal from it is an
insertion into the kept list. -/
def state_inv (args kept : List String) (r : FmtResult) : Prop :=
  List.Sublist r.2.1 args ∧ r.2.1.length + r.2.2.length = args.length + kept.length

/-!  Theorems. -/

theorem fix_resolve_state {i : String} {cf : List Char}
    {args kept : List String} {s : List Char} {args' kept' : List String}
    (h : fix_resolve i cf args kept = .ok (s, args', kept')) :
    List.Sublist args' args ∧ args'.length + kept'.length = args.length + kept.length := by
  unfold fix_resolve at h
  split at h
  · simp only [Except.ok.injEq, Prod.mk.injEq] at h
    obtain ⟨-, ha, hk⟩ := h
    subst ha; subst hk
    exact ⟨List.Sublist.refl _, rfl⟩
  · split at h
    · rename_i hidx
      simp only [Except.ok.injEq, Prod.mk.injEq] at h
      obtain ⟨-, ha, hk⟩ := h
      subst ha; subst hk
      have hlt := (List.findIdx?_eq_some_iff_findIdx_eq.mp hidx).1
      refine ⟨List.eraseIdx_sublist args _, ?_⟩
      simp [List.length_eraseIdx_of_lt hlt]
      omega
    · exact absurd h (by simp)

theorem fix_interpolated_state {last : Char} {ident : List Char}
    {args kept : List String} {s : List Char} {args' kept' : List String}
    (h : fix_interpolated last ident args kept = .ok (s, args', kept')) :
    List.Sublist args' args ∧ args'.length + kept'.length = args.length + kept.length := by
  unfold fix_interpolated at h
  split at h
  · exact absurd h (by simp)
  · split at h <;> exact fix_resolve_state h

theorem parse_fmt_loop_state (l : List Char) :
    ∀ (mode : ScanMode) (args kept : List String) (acc : List Char),
      state_inv args kept (parse_fmt_loop l mode args kept acc) := by
  induction l with
  | nil =>
    intro mode args kept acc
    have hclose : ∀ (c : Char) (ident : List Char),
        state_inv args kept (close_interpolated c ident args kept acc) := by
      intro c ident
      unfold close_interpolated
      rcases hfix : fix_interpolated c ident args kept with e | ⟨s, args', kept'⟩
      · exact ⟨List.Sublist.refl _, rfl⟩
      · exact fix_interpolated_state hfix
    cases mode <;> simp only [parse_fmt_loop] <;>
      first
        | exact ⟨List.Sublist.refl _, rfl⟩
        | exact hclose _ _
  | cons c rest ih =>
    intro mode args kept acc
    cases mode with
    | top =>
      simp only [parse_fmt_loop]
      split
      · exact ih _ _ _ _
      · split
        · exact ih _ _ _ _
        · exact ih _ _ _ _
    | afterOpen =>
      simp only [parse_fmt_loop]
      split
      · exact ih _ _ _ _
      · split
        · rcases hfix : fix_interpolated rbrace [] args kept with e | ⟨s, args', kept'⟩
          · simp only [hfix, state_inv]
            exact ⟨List.Sublist.refl _, by simp⟩
          · simp only [hfix]
            obtain ⟨h1, h2⟩ := fix_interpolated_state hfix
            obtain ⟨h3, h4⟩ := ih .top args' kept' (acc ++ s)
            exact ⟨h3.trans h1, by omega⟩
        · split
          · exact ih _ _ _ _
          · exact ih _ _ _ _
    | afterClose =>
      simp only [parse_fmt_loop]
      split
      · exact ih _ _ _ _
      · exact ⟨List.Sublist.refl _, rfl⟩
    | interp last ident =>
      simp only [parse_fmt_loop]
      split
      · rcases hfix : fix_interpolated rbrace ident args kept with e | ⟨s, args', kept'⟩
        · simp only [hfix, state_inv]
          exact ⟨List.Sublist.refl _, by simp⟩
        · simp only [hfix]
          obtain ⟨h1, h2⟩ := fix_interpolated_state hfix
          obtain ⟨h3, h4⟩ := ih .top args' kept' (acc ++ s)
          exact ⟨h3.trans h1, by omega⟩
      · split
        · exact ih _ _ _ _
        · exact ih _ _ _ _
    | skipWs ident_char ident =>
      simp only [parse_fmt_loop]
      split
      · exact ih _ _ _ _
      · split
        · exact ih _ _ _ _
        · exact ⟨List.Sublist.refl _, rfl⟩

theorem exec_traced_stmts (logging pause : Bool) (ef xf : String)
    (ai : List String) (si : Bool) (body : Nat → Nat × Bool) (d : Nat) :
    exec_stmts body (traced_stmts logging pause ef xf ai si) d =
      (match body (d + 1) with
       | (d', true) => (d' - 1, true)
       | (d', false) => (d', false)) := by
  cases pause <;>
    rcases hb : body (d + 1) with ⟨d', ok⟩ <;> cases ok <;>
      simp [traced_stmts, exec_stmts, hb]

theorem exit_prints_return_traced (logging pause : Bool) (ef xf : String)
    (ai : List String) (si : Bool) :
    exit_prints_return (traced_stmts logging pause ef xf ai si) = si := by
  cases pause <;> cases si <;> simp [traced_stmts, exit_prints_return]

/-- C2 (amended): in every generated block the depth counter is incremented
before the original body runs, and the body runs at that incremented depth;
when the body completes normally a plain sequential statement decrements the
counter afterwards, but when the body exits abruptly (early `return`, `?`
propagation, panic) control leaves the block before the decrement, so the
counter is left at whatever value the body's abrupt exit produced — there is
no guaranteed-run-on-exit mechanism. -/
theorem c2_depth_plain_decrement (args : Args) (attr_applied : AttrApplied)
    (sig : Sig) (stmts : List Stmt) (body : Nat → Nat × Bool) (d : Nat)
    (h : construct_traced_block args attr_applied sig = some (.traced stmts)) :
    exec_stmts body stmts d =
      (match body (d + 1) with
       | (d', true) => (d' - 1, true)
       | (d', false) => (d', false)) := by
  unfold construct_traced_block at h
  split at h
  · exact absurd h (by simp)
  · split at h
    · exact absurd h (by simp)
    · exact absurd h (by simp)
    · simp only [Option.some.injEq, TracedBlock.traced.injEq] at h
      subst h
      exact exec_traced_stmts _ _ _ _ _ _ body d

/-- Witness for C2's amended theorem: for `fn foo()` under the default
configuration, a depth-preserving, normally-completing body run from depth 3
leaves the counter at 3 again. -/
theorem c2_depth_plain_decrement_witness :
    construct_traced_block sampleArgs .Directly fooSig = some (.traced foo_default_stmts)
    ∧ exec_stmts (fun d => (d, true)) foo_default_stmts 3 = (3, true) :=
  ⟨rfl,
    (c2_depth_plain_decrement sampleArgs .Directly fooSig foo_default_stmts
      (fun d => (d, true)) 3 rfl).trans rfl⟩

/-- Counterexample to C2 as stated: the claim says the pre-call depth is
restored even across early returns or propagated failures, via a
guaranteed-run-on-exit mechanism.  For `fn foo()` under the default
configuration, a body that exits abruptly while itself preserving the depth
counter leaves the counter at 1, not at the pre-call depth 0: the decrement
is a plain statement after the body and is skipped on abrupt exit. -/
theorem c2_counterexample :
    construct_traced_block sampleArgs .Directly fooSig = some (.traced foo_default_stmts)
    ∧ exec_stmts (fun d => (d, false)) foo_default_stmts 0 = (1, false)
    ∧ exec_stmts (fun d => (d, false)) foo_default_stmts 0 ≠ (0, false) :=
  ⟨rfl, rfl, by decide⟩

theorem exit_val_cases (tmpl : List Char) :
    ((parse_fmt_str tmpl (["r"])).2.1 = [] ∧ (parse_fmt_str tmpl (["r"])).2.2.length = 1)
    ∨ ((parse_fmt_str tmpl (["r"])).2.1 = ["r"] ∧ (parse_fmt_str tmpl (["r"])).2.2 = []) := by
  obtain ⟨hsub, hlen⟩ := parse_fmt_loop_state tmpl .top (["r"]) [] []
  rcases List.sublist_singleton.mp hsub with ha | ha
  · left
    refine ⟨ha, ?_⟩
    rw [ha] at hlen
    simpa using hlen
  · right
    refine ⟨ha, ?_⟩
    rw [ha] at hlen
    simp at hlen
    exact hlen

/-- C4: with a custom exit template, the generated exit line interpolates the
function's return value if and only if compiling the template against the
singleton available list `[r]` consumed the reserved name `r` (removed it
from the available list); when the template omits `r`, the exit print carries
no return-value argument and only the compiled literal text is printed. -/
theorem c4_exit_interpolates_iff_r_consumed (args : Args)
    (attr_applied : AttrApplied) (sig : Sig) (tmpl : String) (stmts : List Stmt)
    (hfe : args.format_exit = some tmpl)
    (h : construct_traced_block args attr_applied sig = some (.traced stmts)) :
    (exit_prints_return stmts = true ↔ (parse_fmt_str tmpl.data (["r"])).2.1 = []) := by
  unfold construct_traced_block at h
  split at h
  · exact absurd h (by simp)
  · split at h
    · exact absurd h (by simp)
    · exact absurd h (by simp)
    · rename_i henter hexit
      simp only [Option.some.injEq, TracedBlock.traced.injEq] at h
      subst h
      rw [exit_prints_return_traced]
      unfold exit_format_pair at hexit
      rw [hfe] at hexit
      simp only [Prod.mk.injEq] at hexit
      obtain ⟨-, hval⟩ := hexit
      rcases exit_val_cases tmpl.data with ⟨ha, hk⟩ | ⟨ha, hk⟩
      · rw [ha, ← hval]
        rcases hx : (parse_fmt_str tmpl.data (["r"])).2.2 with _ | ⟨y, ys⟩
        · rw [hx] at hk; simp at hk
        · simp
      · rw [ha, ← hval, hk]
        simp

/-- Witness for C4: the template `returning \x7br\x7d` consumes `r`, and the
generated exit print for `fn foo()` indeed interpolates the return value. -/
theorem c4_exit_interpolates_iff_r_consumed_witness :
    c4_args.format_exit = some ("returning \x7br\x7d")
    ∧ construct_traced_block c4_args .Directly fooSig = some (.traced c4_stmts)
    ∧ (exit_prints_return c4_stmts = true
        ↔ (parse_fmt_str ("returning \x7br\x7d").data (["r"])).2.1 = []) :=
  ⟨rfl, rfl,
    c4_exit_interpolates_iff_r_consumed c4_args .Directly fooSig
      ("returning \x7br\x7d") c4_stmts rfl rfl⟩

/-- C7: compiling the template `\x7bunknownName\x7d` against the available
names `a`, `b` yields the identifier-not-found error naming `unknownName`,
with the available list returned unconsumed and in its original order and
nothing placed into the used list. -/
theorem c7_unknown_identifier :
    parse_fmt_str ("\x7bunknownName\x7d".data) (["a", "b"]) =
      (.error (.notFound ("unknownName")), ["a", "b"], []) := by decide

theorem ws_ne_rbrace {c : Char} (h : c.isWhitespace = true) : ¬ c = rbrace := by
  intro he
  subst he
  exact absurd h (by decide)

theorem lbrace_ne_rbrace : ¬ lbrace = rbrace := by decide

theorem rbrace_ne_lbrace : ¬ rbrace = lbrace := by decide

theorem skip_ws_run (ws_run : List Char)
    (h : ∀ x ∈ ws_run, x.isWhitespace = true) :
    ∀ (l : List Char) (w : Char) (ident : List Char) (args kept : List String)
      (acc : List Char),
      parse_fmt_loop (ws_run ++ l) (.skipWs w ident) args kept acc
        = parse_fmt_loop l (.skipWs w ident) args kept acc := by
  induction ws_run with
  | nil => intros; rfl
  | cons x xs ih =>
    intro l w ident args kept acc
    have hx : x.isWhitespace = true := h x (by simp)
    have hxs : ∀ y ∈ xs, y.isWhitespace = true := fun y hy => h y (by simp [hy])
    simp only [List.cons_append, parse_fmt_loop]
    rw [if_neg (ws_ne_rbrace hx), if_pos hx]
    exact ih hxs l w ident args kept acc

/-- Counterexample to C5 as stated.  First conjunct: the claim says a newline
before the closing brace is a hard error, but `\x7ba` newline `\x7d` compiles
successfully — a newline is ordinary whitespace to the scanner.  Second
conjunct: the claim says scanning resumes immediately after the `\x7d` that
closes a whitespace run, but in `\x7ba \x7dx\x7d` the scanner keeps
collecting identifier characters after that `\x7d`, resolving the identifier
`ax` against the available list — under the claim's reading this template
would be placeholder `a` followed by literal `x` and an unmatched `\x7d`, an
error. -/
theorem c5_counterexample :
    parse_fmt_str ("\x7ba\n\x7d".data) (["a"]) = (.ok ("\x7b1:\x7d".data), [], ["a"])
    ∧ parse_fmt_str ("\x7ba \x7dx\x7d".data) (["ax"]) =
        (.ok ("\x7b1:\x7d".data), [], ["ax"]) :=
  ⟨by decide, by decide⟩

/-- C5 (amended): once whitespace is met inside an unescaped placeholder, the
scanner skips whitespace characters (newlines included) and (i) on reaching
`\x7d` it continues in identifier-collection mode with the close recorded —
it does not resume literal scanning, so the placeholder can keep growing;
(ii) on reaching any other non-whitespace character it fails with a hard
error naming that character; (iii) on end of input it fails with the
unterminated-placeholder error. -/
theorem c5_whitespace_amended (ws_run tail ident : List Char)
    (args kept : List String) (acc : List Char) (w c : Char)
    (hws : ∀ x ∈ ws_run, x.isWhitespace = true)
    (hw : w.isWhitespace = true)
    (hc1 : c.isWhitespace = false) (hc2 : ¬ c = rbrace) :
    (parse_fmt_loop (ws_run ++ rbrace :: tail) (.skipWs w ident) args kept acc
        = parse_fmt_loop tail (.interp rbrace ident) args kept acc)
    ∧ (parse_fmt_loop (ws_run ++ c :: tail) (.skipWs w ident) args kept acc
        = (.error (.unexpectedChar c), args, kept))
    ∧ (parse_fmt_loop [] (.skipWs w ident) args kept acc
        = (.error .unterminated, args, kept)) := by
  refine ⟨?_, ?_, ?_⟩
  · rw [skip_ws_run ws_run hws]
    simp [parse_fmt_loop]
  · rw [skip_ws_run ws_run hws]
    simp only [parse_fmt_loop]
    rw [if_neg hc2, if_neg (by simp [hc1])]
  · simp [parse_fmt_loop, close_interpolated, fix_interpolated, ws_ne_rbrace hw]

/-- Witness for C5's amended theorem, at the whitespace run consisting of a
space and a newline, continuation character `x`, and identifier `a`. -/
theorem c5_whitespace_amended_witness :
    ((∀ x ∈ ([spaceChar, Char.ofNat 10] : List Char), x.isWhitespace = true)
      ∧ spaceChar.isWhitespace = true
      ∧ Char.isWhitespace 'x' = false ∧ ¬ ('x' = rbrace))
    ∧ ((parse_fmt_loop ([spaceChar, Char.ofNat 10] ++ rbrace :: [])
          (.skipWs spaceChar (['a'])) (["a"]) [] []
        = parse_fmt_loop [] (.interp rbrace (['a'])) (["a"]) [] [])
      ∧ (parse_fmt_loop ([spaceChar, Char.ofNat 10] ++ 'x' :: [])
          (.skipWs spaceChar (['a'])) (["a"]) [] []
        = (.error (.unexpectedChar 'x'), ["a"], []))
      ∧ (parse_fmt_loop [] (.skipWs spaceChar (['a'])) (["a"]) [] []
        = (.error .unterminated, ["a"], []))) :=
  ⟨⟨by decide, by decide, by decide, by decide⟩,
    c5_whitespace_amended [spaceChar, Char.ofNat 10] [] (['a']) (["a"]) [] []
      spaceChar 'x' (by decide) (by decide) (by decide) (by decide)⟩

mutual
theorem process_pat_no_filter (args : Args) (aa : AttrApplied)
    (hf : args.filter = .None) :
    ∀ (p : Pat) (acc : List String), pat_supported p = true →
      process_pat args aa p acc = some (acc ++ flatten_pat p)
  | .ident name, acc, _ => by
    cases aa <;> simp [process_pat, hf, flatten_pat]
  | .tuple elems, acc, hs => by
    simp only [process_pat, flatten_pat]
    exact process_pat_list_no_filter args aa hf elems acc
      (by simpa [pat_supported] using hs)
  | .other, acc, hs => by simp [pat_supported] at hs

theorem process_pat_list_no_filter (args : Args) (aa : AttrApplied)
    (hf : args.filter = .None) :
    ∀ (ps : List Pat) (acc : List String), pats_supported ps = true →
      process_pat_list args aa ps acc = some (acc ++ flatten_pats ps)
  | [], acc, _ => by simp [process_pat_list, flatten_pats]
  | p :: ps, acc, hs => by
    have h1 : pat_supported p = true := by
      simp [pats_supported] at hs
      exact hs.1
    have h2 : pats_supported ps = true := by
      simp [pats_supported] at hs
      exact hs.2
    simp only [process_pat_list, flatten_pats,
      process_pat_no_filter args aa hf p acc h1]
    rw [process_pat_list_no_filter args aa hf ps (acc ++ flatten_pat p) h2]
    simp
end

mutual
theorem process_pat_isSome (args : Args) (aa : AttrApplied) :
    ∀ (p : Pat) (acc : List String), (process_pat args aa p acc).isSome = pat_supported p
  | .ident name, acc => by
    cases aa <;> cases hf : args.filter <;>
      simp [process_pat, pat_supported, hf] <;> split <;> simp
  | .tuple elems, acc => by
    simp only [process_pat, pat_supported]
    exact process_pat_list_isSome args aa elems acc
  | .other, acc => by simp [process_pat, pat_supported]

theorem process_pat_list_isSome (args : Args) (aa : AttrApplied) :
    ∀ (ps : List Pat) (acc : List String),
      (process_pat_list args aa ps acc).isSome = pats_supported ps
  | [], acc => by simp [process_pat_list, pats_supported]
  | p :: ps, acc => by
    simp only [process_pat_list, pats_supported]
    cases hpp : process_pat args aa p acc with
    | none =>
      have h := process_pat_isSome args aa p acc
      rw [hpp] at h
      simp at h
      simp [← h]
    | some acc' =>
      have h := process_pat_isSome args aa p acc
      rw [hpp] at h
      simp at h
      simp [← h, process_pat_list_isSome args aa ps acc']
end

theorem extract_inputs_no_filter (args : Args) (aa : AttrApplied)
    (hf : args.filter = .None) :
    ∀ (inputs : List FnArg) (acc : List String),
      extract_inputs args aa inputs acc =
        if inputs_supported inputs = true then some (acc ++ flatten_inputs inputs)
        else none
  | [], acc => by simp [extract_inputs, inputs_supported, flatten_inputs]
  | .receiver :: rest, acc => by
    simp only [extract_inputs, inputs_supported, flatten_inputs]
    exact extract_inputs_no_filter args aa hf rest acc
  | .typed p :: rest, acc => by
    simp only [extract_inputs, inputs_supported, flatten_inputs]
    by_cases hp : pat_supported p = true
    · simp only [process_pat_no_filter args aa hf p acc hp]
      rw [extract_inputs_no_filter args aa hf rest (acc ++ flatten_pat p)]
      by_cases hr : inputs_supported rest = true
      · simp [hp, hr]
      · simp [hp, hr]
    · cases hpp : process_pat args aa p acc with
      | none => simp [hp]
      | some l =>
        exfalso
        have h := process_pat_isSome args aa p acc
        rw [hpp] at h
        simp at h
        exact hp h

theorem extract_inputs_isSome (args : Args) (aa : AttrApplied) :
    ∀ (inputs : List FnArg) (acc : List String),
      (extract_inputs args aa inputs acc).isSome = inputs_supported inputs
  | [], acc => by simp [extract_inputs, inputs_supported]
  | .receiver :: rest, acc => by
    simp only [extract_inputs, inputs_supported]
    exact extract_inputs_isSome args aa rest acc
  | .typed p :: rest, acc => by
    simp only [extract_inputs, inputs_supported]
    cases hpp : process_pat args aa p acc with
    | none =>
      have h := process_pat_isSome args aa p acc
      rw [hpp] at h
      simp at h
      simp [← h]
    | some acc' =>
      have h := process_pat_isSome args aa p acc
      rw [hpp] at h
      simp at h
      simp [← h, extract_inputs_isSome args aa rest acc']

/-- C3: with no enable/disable filter set, the Argument Extractor returns
exactly the bound parameter names in declaration order — one per plain-named
parameter, tuple patterns flattened left to right, receivers always skipped —
whenever every pattern is supported (and panics otherwise). -/
theorem c3_no_filter_extract (args : Args) (attr_applied : AttrApplied)
    (sig : Sig) (hf : args.filter = .None) :
    extract_arg_idents args attr_applied sig =
      if inputs_supported sig.inputs = true then some (flatten_inputs sig.inputs)
      else none := by
  unfold extract_arg_idents
  rw [extract_inputs_no_filter args attr_applied hf sig.inputs []]
  simp

/-- Witness for C3: `fn bar(self, a, (b, (c, d)))` yields the four names in
order, receiver skipped and the nested tuple flattened. -/
theorem c3_no_filter_extract_witness :
    sampleArgs.filter = .None
    ∧ extract_arg_idents sampleArgs .Directly c3_sig =
        (if inputs_supported c3_sig.inputs = true then some (flatten_inputs c3_sig.inputs)
         else none)
    ∧ extract_arg_idents sampleArgs .Directly c3_sig = some (["a", "b", "c", "d"]) :=
  ⟨rfl, c3_no_filter_extract sampleArgs .Directly c3_sig rfl, by decide⟩

/-- Counterexample to C9 as stated: the claim says the failure on an
unsupported pattern is reported at the parameter's position.  For
`fn f(self, a, <struct pattern>)` the extractor (and with it the whole block
construction) yields the bare `unimplemented!()` panic, modelled as `none`:
no diagnostic value is produced at all — in particular no `compile_error!`
stub block carrying a span, unlike the format-string error path — so nothing
is reported at the parameter's position. -/
theorem c9_counterexample :
    extract_arg_idents sampleArgs .Directly badPatSig = none
    ∧ construct_traced_block sampleArgs .Directly badPatSig = none :=
  ⟨by decide, by decide⟩

/-- C9 (amended): the Argument Extractor aborts with the `unimplemented!()`
panic exactly when some parameter pattern is unsupported — a hard error that
fails fast, never a silent skip — but the panic carries no source span, so
the failure is not reported at the parameter's position. -/
theorem c9_unsupported_pattern_panics (args : Args) (attr_applied : AttrApplied)
    (sig : Sig) :
    extract_arg_idents args attr_applied sig = none
      ↔ inputs_supported sig.inputs = false := by
  unfold extract_arg_idents
  have h := extract_inputs_isSome args attr_applied sig.inputs []
  constructor
  · intro hn
    rw [hn] at h
    simpa using h.symm
  · intro hf
    cases hx : extract_inputs args attr_applied sig.inputs [] with
    | none => rfl
    | some l =>
      rw [hx] at h
      rw [hf] at h
      simp at h

theorem transform_item_is_depth_decl (args : Args) (aa : AttrApplied)
    (item item' : Item) (h : transform_item args aa item = some item') :
    is_depth_decl item' = is_depth_decl item := by
  cases item with
  | fn f =>
    simp only [transform_item] at h
    rcases Option.map_eq_some'.mp h with ⟨f', -, rfl⟩
    rfl
  | module name content =>
    simp only [transform_item] at h
    cases content with
    | none => simp [transform_mod] at h
    | some items =>
      simp only [transform_mod] at h
      rcases Option.map_eq_some'.mp h with ⟨items', -, rfl⟩
      rfl
  | implBlock items =>
    simp only [transform_item] at h
    rcases Option.map_eq_some'.mp h with ⟨items', -, rfl⟩
    rfl
  | depthDecl =>
    simp only [transform_item, Option.some.injEq] at h
    subst h
    rfl
  | other =>
    simp only [transform_item, Option.some.injEq] at h
    subst h
    rfl

theorem transform_mod_items_spec (args : Args) (aa : AttrApplied) :
    ∀ (items items' : List Item),
      transform_mod_items args aa items = some items' →
      items'.length = items.length
        ∧ count_depth_decls items' = count_depth_decls items := by
  intro items
  induction items with
  | nil =>
    intro items' h
    simp [transform_mod_items] at h
    subst h
    exact ⟨rfl, rfl⟩
  | cons item rest ih =>
    intro items' h
    simp only [transform_mod_items] at h
    cases hstep : (if (aa = .Directly && mod_filter_skips args item) = true then some item
        else transform_item args .Indirectly item) with
    | none => rw [hstep] at h; simp at h
    | some item'' =>
      rw [hstep] at h
      simp only [] at h
      rcases Option.map_eq_some'.mp h with ⟨rest', hrest, rfl⟩
      obtain ⟨hl, hc⟩ := ih rest' hrest
      have hd : is_depth_decl item'' = is_depth_decl item := by
        by_cases hskip : (aa = .Directly && mod_filter_skips args item) = true
        · rw [if_pos hskip] at hstep
          cases hstep
          rfl
        · rw [if_neg hskip] at hstep
          exact transform_item_is_depth_decl args .Indirectly item item'' hstep
      refine ⟨by simp [hl], ?_⟩
      simp only [count_depth_decls, List.countP_cons] at hc ⊢
      rw [hd, hc]

/-- C6: transforming a module with inline content processes every child
(keeping the child count) and then injects exactly one fresh thread-local
depth-counter declaration as the first item of the module body: the number of
depth-counter declarations among the module's direct children grows by
exactly one, regardless of how many nested functions the module contains. -/
theorem c6_one_depth_decl_per_module (args : Args) (attr_applied : AttrApplied)
    (name : String) (items : List Item) (out : Item)
    (h : transform_item args attr_applied (.module name (some items)) = some out) :
    ∃ items', transform_mod_items args attr_applied items = some items'
      ∧ out = .module name (some (Item.depthDecl :: items'))
      ∧ items'.length = items.length
      ∧ count_depth_decls (Item.depthDecl :: items') = count_depth_decls items + 1 := by
  simp only [transform_item, transform_mod] at h
  rcases Option.map_eq_some'.mp h with ⟨items', hitems, rfl⟩
  obtain ⟨hl, hc⟩ := transform_mod_items_spec args attr_applied items items' hitems
  refine ⟨items', hitems, rfl, hl, ?_⟩
  have hstep : count_depth_decls (Item.depthDecl :: items') = count_depth_decls items' + 1 := by
    simp [count_depth_decls, List.countP_cons, is_depth_decl]
  rw [hstep, hc]

/-- Witness for C6, at a module with one function and one untouched item. -/
theorem c6_one_depth_decl_per_module_witness :
    transform_item sampleArgs .Directly (Item.module ("m") (some c6_mod_items)) = some c6_out
    ∧ ∃ items', transform_mod_items sampleArgs .Directly c6_mod_items = some items'
      ∧ c6_out = .module ("m") (some (Item.depthDecl :: items'))
      ∧ items'.length = c6_mod_items.length
      ∧ count_depth_decls (Item.depthDecl :: items') = count_depth_decls c6_mod_items + 1 :=
  ⟨rfl, c6_one_depth_decl_per_module sampleArgs .Directly ("m") c6_mod_items c6_out rfl⟩

mutual
theorem process_pat_indirect_filter (args : Args) (f2 : Filter) :
    ∀ (p : Pat) (acc : List String),
      process_pat { args with filter := f2 } .Indirectly p acc
        = process_pat args .Indirectly p acc
  | .ident name, acc => by simp [process_pat]
  | .tuple elems, acc => by
    simp only [process_pat]
    exact process_pat_list_indirect_filter args f2 elems acc
  | .other, acc => by simp [process_pat]

theorem process_pat_list_indirect_filter (args : Args) (f2 : Filter) :
    ∀ (ps : List Pat) (acc : List String),
      process_pat_list { args with filter := f2 } .Indirectly ps acc
        = process_pat_list args .Indirectly ps acc
  | [], acc => by simp [process_pat_list]
  | p :: ps, acc => by
    simp only [process_pat_list, process_pat_indirect_filter args f2 p acc]
    cases process_pat args .Indirectly p acc with
    | none => rfl
    | some acc' => exact process_pat_list_indirect_filter args f2 ps acc'
end

theorem extract_inputs_indirect_filter (args : Args) (f2 : Filter) :
    ∀ (inputs : List FnArg) (acc : List String),
      extract_inputs { args with filter := f2 } .Indirectly inputs acc
        = extract_inputs args .Indirectly inputs acc
  | [], acc => by simp [extract_inputs]
  | .receiver :: rest, acc => by
    simp only [extract_inputs]
    exact extract_inputs_indirect_filter args f2 rest acc
  | .typed p :: rest, acc => by
    simp only [extract_inputs, process_pat_indirect_filter args f2 p acc]
    cases process_pat args .Indirectly p acc with
    | none => rfl
    | some acc' => exact extract_inputs_indirect_filter args f2 rest acc'

theorem construct_indirect_filter (args : Args) (f2 : Filter) (sig : Sig) :
    construct_traced_block { args with filter := f2 } .Indirectly sig
      = construct_traced_block args .Indirectly sig := by
  unfold construct_traced_block
  rw [show extract_arg_idents { args with filter := f2 } .Indirectly sig
      = extract_arg_idents args .Indirectly sig from
    extract_inputs_indirect_filter args f2 sig.inputs []]
  rfl

theorem transform_impl_items_indirect (args : Args) :
    ∀ (items : List ImplItem),
      transform_impl_items args .Indirectly items = instrument_all_methods args items
  | [] => rfl
  | .method f :: rest => by
    simp only [transform_impl_items, instrument_all_methods]
    rw [if_neg (by simp)]
    cases construct_traced_block args .Indirectly f.sig with
    | none => rfl
    | some b => rw [transform_impl_items_indirect args rest]
  | .otherImplItem :: rest => by
    simp only [transform_impl_items, instrument_all_methods]
    rw [transform_impl_items_indirect args rest]

theorem instrument_all_methods_filter (args : Args) (f2 : Filter) :
    ∀ (items : List ImplItem),
      instrument_all_methods { args with filter := f2 } items
        = instrument_all_methods args items
  | [] => rfl
  | .method f :: rest => by
    simp only [instrument_all_methods, construct_indirect_filter args f2 f.sig]
    cases construct_traced_block args .Indirectly f.sig with
    | none => rfl
    | some b => rw [instrument_all_methods_filter args f2 rest]
  | .otherImplItem :: rest => by
    simp only [instrument_all_methods]
    rw [instrument_all_methods_filter args f2 rest]

/-- C10: when the attribute sits directly on a module, the per-child step of
`transform_mod` consults the name filter only for function and nested-module
children (skipping those the filter excludes, and otherwise recursing marked
`Indirectly`); a child `impl` block is always transformed in full — every
method instrumented with `AttrApplied::Indirectly`, identically for any
filter lists — and children of any other kind are left unchanged. -/
theorem c10_mod_filter_scope (args : Args) (ms : List ImplItem) (f : FnItem)
    (name : String) (content : Option (List Item)) (f2 : Filter)
    (item : Item) (rest : List Item) :
    (transform_mod_items args .Directly (item :: rest)
      = match mod_child_step args item with
        | none => none
        | some item' => (transform_mod_items args .Directly rest).map (item' :: ·))
    ∧ (mod_child_step args (.implBlock ms)
      = (instrument_all_methods args ms).map .implBlock)
    ∧ (mod_child_step { args with filter := f2 } (.implBlock ms)
      = mod_child_step args (.implBlock ms))
    ∧ (mod_child_step args (.fn f)
      = if filter_skips args.filter f.sig.ident then some (.fn f)
        else transform_item args .Indirectly (.fn f))
    ∧ (mod_child_step args (.module name content)
      = if filter_skips args.filter name then some (.module name content)
        else transform_item args .Indirectly (.module name content))
    ∧ (mod_child_step args Item.depthDecl = some Item.depthDecl)
    ∧ (mod_child_step args Item.other = some Item.other) := by
  refine ⟨?_, ?_, ?_, ?_, ?_, ?_, ?_⟩
  · simp only [transform_mod_items, mod_child_step]
    by_cases hskip : mod_filter_skips args item = true
    · simp [hskip]
    · simp [hskip]
  · simp only [mod_child_step, mod_filter_skips, if_neg]
    rw [if_neg (by simp)]
    simp only [transform_item]
    rw [transform_impl_items_indirect args ms]
  · simp only [mod_child_step, mod_filter_skips]
    rw [if_neg (by simp), if_neg (by simp)]
    simp only [transform_item]
    rw [transform_impl_items_indirect args ms,
      transform_impl_items_indirect { args with filter := f2 } ms,
      instrument_all_methods_filter args f2 ms]
  · simp [mod_child_step, mod_filter_skips]
  · simp [mod_child_step, mod_filter_skips]
  · simp [mod_child_step, mod_filter_skips, transform_item]
  · simp [mod_child_step, mod_filter_skips, transform_item]

theorem split_once_colon_no_colon :
    ∀ (l : List Char), (∀ c ∈ l, ¬ c = ':') → split_once_colon l = none
  | [], _ => rfl
  | c :: rest, h => by
    have h1 : ¬ c = ':' := h c (by simp)
    simp only [split_once_colon]
    rw [if_neg h1, split_once_colon_no_colon rest (fun x hx => h x (by simp [hx]))]
    rfl

theorem split_once_colon_prefix :
    ∀ (pre post : List Char), (∀ c ∈ pre, ¬ c = ':') →
      split_once_colon (pre ++ ':' :: post) = some (pre, post)
  | [], post, _ => by simp [split_once_colon]
  | c :: pre, post, h => by
    have h1 : ¬ c = ':' := h c (by simp)
    simp only [List.cons_append, split_once_colon, List.append_eq]
    rw [if_neg h1,
      split_once_colon_prefix pre post (fun x hx => h x (by simp [hx]))]
    rfl

theorem ident_char_ok_spec {c : Char} (h : ident_char_ok c = true) :
    ¬ c = lbrace ∧ ¬ c = rbrace ∧ ¬ c = ':' ∧ c.isWhitespace = false := by
  simp only [ident_char_ok, Bool.and_eq_true, Bool.not_eq_true',
    decide_eq_false_iff_not] at h
  tauto

theorem spec_char_ok_spec {c : Char} (h : spec_char_ok c = true) :
    ¬ c = lbrace ∧ ¬ c = rbrace ∧ c.isWhitespace = false := by
  simp only [spec_char_ok, Bool.and_eq_true, Bool.not_eq_true',
    decide_eq_false_iff_not] at h
  tauto

theorem fix_interpolated_ph (id : String) (spec : Option String)
    (args kept : List String)
    (hid : id.data.all ident_char_ok = true) :
    fix_interpolated rbrace (id.data ++ spec_render spec) args kept
      = fix_resolve id (spec_chars spec) args kept := by
  have hnc : ∀ c ∈ id.data, ¬ c = ':' := fun c hc =>
    (ident_char_ok_spec (List.all_eq_true.mp hid c hc)).2.2.1
  unfold fix_interpolated
  rw [if_neg (by simp)]
  cases spec with
  | none =>
    rw [show spec_render none = [] from rfl, List.append_nil,
      split_once_colon_no_colon id.data hnc]
    rfl
  | some s =>
    rw [show spec_render (some s) = ':' :: s.data from rfl,
      split_once_colon_prefix id.data s.data hnc]
    rfl

theorem interp_scan (cs : List Char)
    (hcs : ∀ c ∈ cs, ¬ c = rbrace ∧ c.isWhitespace = false) :
    ∀ (tail : List Char) (last : Char) (ident : List Char)
      (args kept : List String) (acc : List Char),
      parse_fmt_loop (cs ++ rbrace :: tail) (.interp last ident) args kept acc
        = (match fix_interpolated rbrace (ident ++ cs) args kept with
           | .error e => (.error e, args, kept)
           | .ok (s, args', kept') => parse_fmt_loop tail .top args' kept' (acc ++ s)) := by
  induction cs with
  | nil =>
    intro tail last ident args kept acc
    simp only [List.nil_append, parse_fmt_loop, List.append_nil]
    simp
  | cons c cs' ih =>
    intro tail last ident args kept acc
    obtain ⟨h1, h2⟩ := hcs c (by simp)
    have hcs' : ∀ x ∈ cs', ¬ x = rbrace ∧ x.isWhitespace = false :=
      fun x hx => hcs x (by simp [hx])
    simp only [List.cons_append, parse_fmt_loop]
    rw [if_neg h1, if_neg (by simp [h2])]
    simp only [List.append_eq]
    rw [ih hcs' tail c (ident ++ [c]) args kept acc]
    simp

theorem after_open_ph (cs : List Char)
    (hcs : ∀ c ∈ cs, ¬ c = lbrace ∧ ¬ c = rbrace ∧ c.isWhitespace = false) :
    ∀ (tail : List Char) (args kept : List String) (acc : List Char),
      parse_fmt_loop (cs ++ rbrace :: tail) .afterOpen args kept acc
        = (match fix_interpolated rbrace cs args kept with
           | .error e => (.error e, args, kept)
           | .ok (s, args', kept') => parse_fmt_loop tail .top args' kept' (acc ++ s)) := by
  cases cs with
  | nil =>
    intro tail args kept acc
    simp only [List.nil_append, parse_fmt_loop]
    rw [if_neg (by decide)]
    simp
  | cons c cs' =>
    intro tail args kept acc
    obtain ⟨h1, h2, h3⟩ := hcs c (by simp)
    simp only [List.cons_append, parse_fmt_loop]
    rw [if_neg h1, if_neg h2, if_neg (by simp [h3])]
    simp only [List.append_eq]
    rw [interp_scan cs'
      (fun x hx => ⟨(hcs x (by simp [hx])).2.1, (hcs x (by simp [hx])).2.2⟩)
      tail c ([c]) args kept acc]
    simp

theorem seg_wf_ph {id : String} {spec : Option String}
    (h : seg_wf (.ph id spec) = true) :
    ∀ c ∈ id.data ++ spec_render spec, ¬ c = lbrace ∧ ¬ c = rbrace ∧ c.isWhitespace = false := by
  simp only [seg_wf, Bool.and_eq_true] at h
  intro c hc
  rcases List.mem_append.mp hc with hin | hin
  · obtain ⟨a1, a2, a3, a4⟩ := ident_char_ok_spec (List.all_eq_true.mp h.1 c hin)
    exact ⟨a1, a2, a4⟩
  · cases spec with
    | none => simp [spec_render] at hin
    | some s =>
      simp only [spec_render, List.mem_cons] at hin
      rcases hin with rfl | hin
      · exact ⟨by decide, by decide, by decide⟩
      · exact spec_char_ok_spec (List.all_eq_true.mp h.2 c hin)

theorem parse_refines_spec :
    ∀ (segs : List Seg) (args kept : List String) (acc : List Char),
      segs_wf segs = true →
      parse_fmt_loop (render_segs segs) .top args kept acc
        = compile_spec segs args kept acc := by
  intro segs
  induction segs with
  | nil => intro args kept acc _; rfl
  | cons seg rest ih =>
    intro args kept acc hwf
    have hpair : seg_wf seg = true ∧ List.all rest seg_wf = true := by
      have h := hwf
      simp only [segs_wf, List.all_cons, Bool.and_eq_true] at h
      exact h
    have hseg : seg_wf seg = true := hpair.1
    have hrest : segs_wf rest = true := hpair.2
    cases seg with
    | lit c =>
      have hc : ¬ c = lbrace ∧ ¬ c = rbrace := by
        simp only [seg_wf, Bool.and_eq_true, Bool.not_eq_true',
          decide_eq_false_iff_not] at hseg
        exact hseg
      simp only [render_segs, render_seg, List.singleton_append, compile_spec]
      simp only [parse_fmt_loop]
      rw [if_neg hc.1, if_neg hc.2]
      exact ih args kept (acc ++ [c]) hrest
    | escOpen =>
      simp only [render_segs, render_seg, List.cons_append, List.nil_append,
        compile_spec]
      simp only [parse_fmt_loop]
      simp only [eq_self_iff_true, if_true, lbrace_ne_rbrace, if_false,
        ite_true, ite_false]
      exact ih args kept (acc ++ [lbrace, lbrace]) hrest
    | escClose =>
      simp only [render_segs, render_seg, List.cons_append, List.nil_append,
        compile_spec]
      simp only [parse_fmt_loop]
      simp [rbrace_ne_lbrace]
      exact ih args kept (acc ++ [rbrace, rbrace]) hrest
    | ph id spec =>
      have hsplit : id.data.all ident_char_ok = true ∧ spec_wf spec = true :=
        Bool.and_eq_true_iff.mp hseg
      have hrender : render_segs (.ph id spec :: rest)
          = lbrace :: ((id.data ++ spec_render spec) ++ rbrace :: render_segs rest) := by
        simp [render_segs, render_seg]
      rw [hrender]
      simp only [parse_fmt_loop]
      rw [if_pos trivial]
      rw [after_open_ph (id.data ++ spec_render spec) (seg_wf_ph hseg)
        (render_segs rest) args kept acc]
      rw [fix_interpolated_ph id spec args kept hsplit.1]
      simp only [compile_spec, fix_resolve]
      cases hk : kept.findIdx? (· == id) with
      | some index =>
        simp only []
        exact ih args kept (acc ++ mk_positional (index + 1) (spec_chars spec)) hrest
      | none =>
        cases ha : args.findIdx? (· == id) with
        | some index =>
          simp only []
          have hlen : (kept ++ [id]).length = kept.length + 1 := by simp
          rw [hlen]
          exact ih (args.eraseIdx index) (kept ++ [id])
            (acc ++ mk_positional (kept.length + 1) (spec_chars spec)) hrest
        | none => rfl

/-- C1: over every well-formed rendered template (literal characters, escaped
braces, and placeholders with brace-, colon- and whitespace-free identifiers
and brace- and whitespace-free specs) that the interpolation compiler
accepts, the compiler computes exactly the reference first-occurrence
algorithm `compile_spec`: an identifier is assigned the 1-based position of
its first occurrence (appended to the used list and removed from the
available list at that moment), every later occurrence of the same
identifier — even with a different format spec — reuses that same position,
and position `n` in the output format string refers to the `n`-th entry of
the returned used list. -/
theorem c1_first_occurrence_resolution (segs : List Seg) (avail : List String)
    (h : segs_wf segs = true) :
    parse_fmt_str (render_segs segs) avail = compile_spec segs avail [] [] :=
  parse_refines_spec segs avail [] [] h

/-- Witness for C1: the template `\x7ba\x7dx\x7ba:?\x7d` against the
available names `b`, `a` — both occurrences of `a` resolve to position 1
(the second with its own spec `?`), the used list is exactly `a`, and `b`
stays available. -/
theorem c1_first_occurrence_resolution_witness :
    segs_wf c1_segs = true
    ∧ parse_fmt_str (render_segs c1_segs) (["b", "a"]) = compile_spec c1_segs (["b", "a"]) [] []
    ∧ compile_spec c1_segs (["b", "a"]) [] []
        = (.ok ("\x7b1:\x7dx\x7b1:?\x7d".data), ["b"], ["a"]) :=
  ⟨by decide, c1_first_occurrence_resolution c1_segs (["b", "a"]) (by decide), by decide⟩

theorem compile_spec_ph_free :
    ∀ (segs : List Seg) (avail used : List String) (acc : List Char),
      ph_free segs = true →
      compile_spec segs avail used acc = (.ok (acc ++ render_segs segs), avail, used)
  | [], avail, used, acc, _ => by simp [compile_spec, render_segs]
  | .lit c :: rest, avail, used, acc, h => by
    simp only [compile_spec, render_segs, render_seg]
    rw [compile_spec_ph_free rest avail used (acc ++ [c]) (by simpa [ph_free] using h)]
    simp
  | .escOpen :: rest, avail, used, acc, h => by
    simp only [compile_spec, render_segs, render_seg]
    rw [compile_spec_ph_free rest avail used (acc ++ [lbrace, lbrace])
      (by simpa [ph_free] using h)]
    simp
  | .escClose :: rest, avail, used, acc, h => by
    simp only [compile_spec, render_segs, render_seg]
    rw [compile_spec_ph_free rest avail used (acc ++ [rbrace, rbrace])
      (by simpa [ph_free] using h)]
    simp
  | .ph id spec :: rest, avail, used, acc, h => by
    simp [ph_free] at h

/-- C8: a template consisting only of literal characters and escaped braces
(no placeholders) compiles successfully, for any available list, to the very
same text — escapes preserved — with the available list untouched and an
empty used list; in particular the empty template compiles to the empty
format string with an empty used list. -/
theorem c8_escapes_roundtrip (segs : List Seg) (avail : List String)
    (hwf : segs_wf segs = true) (hph : ph_free segs = true) :
    parse_fmt_str (render_segs segs) avail = (.ok (render_segs segs), avail, [])
    ∧ parse_fmt_str [] avail = (.ok [], avail, []) := by
  constructor
  · rw [show parse_fmt_str (render_segs segs) avail = compile_spec segs avail [] [] from
      parse_refines_spec segs avail [] [] hwf]
    rw [compile_spec_ph_free segs avail [] [] hph]
    simp
  · rfl

/-- Witness for C8: the template `\x7b\x7b\x7d\x7d` (one escaped opening and
one escaped closing brace) against the available name `a`. -/
theorem c8_escapes_roundtrip_witness :
    segs_wf [Seg.escOpen, Seg.escClose] = true
    ∧ ph_free [Seg.escOpen, Seg.escClose] = true
    ∧ (parse_fmt_str (render_segs [Seg.escOpen, Seg.escClose]) (["a"])
        = (.ok (render_segs [Seg.escOpen, Seg.escClose]), ["a"], [])
      ∧ parse_fmt_str [] (["a"]) = (.ok [], ["a"], []))
    ∧ render_segs [Seg.escOpen, Seg.escClose] = ("\x7b\x7b\x7d\x7d".data) :=
  ⟨by decide, by decide,
    c8_escapes_roundtrip [Seg.escOpen, Seg.escClose] (["a"]) (by decide) (by decide),
    by decide⟩

end Trace
